import Mathlib

/-!
Verification development for `MastodonTagFinder.py`.

The program is embedded shallowly: byte buffers are `List Nat` (one `Nat`
per byte), Python's `bytes.find` / slicing are modelled by `pyFindNat`,
`pyFind` and `pySlice` with Python's clamping conventions (`-1` as the
"not found" result, negative indices counted from the end), and the
program's functions `getfield`, `getlist`, `queue_post`, `followed_tags`
and `process_update` are translated statement by statement.  Loops whose
termination is not syntactically evident (`getlist`'s entry scan) take an
explicit fuel argument and return `none` when the fuel runs out, so that
genuine divergence of the source loop is expressible as "`none` for every
fuel".
-/

namespace MastodonTagFinder

/-- A byte string: one `Nat` (the byte value) per byte. -/
abbrev ByteStr := List Nat

/-- Byte-string literal helper for ASCII payloads: each character becomes
its code point, which for ASCII text equals the byte value. -/
def bs (s : String) : ByteStr := s.data.map Char.toNat

/-- Python index adjustment: a negative index counts from the end of the
buffer (clamped at 0), a non-negative index is used as is. -/
def pyIndex (len : Nat) (i : Int) : Nat :=
  if i < 0 then (len + i).toNat else i.toNat

/-- One occurrence test plus linear scan, as `bytes.find` performs it:
starting at `k`, return the least index whose occurrence of `sub` fits
inside `[k, hi)`, or `-1`.  `fuel` bounds the scan; callers pass enough
fuel for the whole range. -/
def findLoop (data sub : ByteStr) (hi : Nat) : Nat → Nat → Int
  | 0, _ => -1
  | fuel + 1, k =>
    if k + sub.length ≤ hi then
      if sub.isPrefixOf (data.drop k) then (k : Int)
      else findLoop data sub hi fuel (k + 1)
    else -1

/-- Python `data.find(sub, start, stop)` for non-negative bounds:
the stop bound is clamped to the buffer length, and the result is the
lowest index of an occurrence lying entirely inside the range, else `-1`. -/
def pyFindNat (data sub : ByteStr) (start stop : Nat) : Int :=
  let hi := min stop data.length
  findLoop data sub hi (hi + 1 - start) start

/-- Python `data.find(sub, start, stop)` with arbitrary integer bounds
(negative bounds count from the end of the buffer). -/
def pyFind (data sub : ByteStr) (start stop : Int) : Int :=
  pyFindNat data sub (pyIndex data.length start) (pyIndex data.length stop)

/-- Python slice `data[a:b]` with arbitrary integer bounds. -/
def pySlice (data : ByteStr) (a b : Int) : ByteStr :=
  (data.take (pyIndex data.length b)).drop (pyIndex data.length a)

/-- Capacity constant, `DUPLICATE_HISTORY_LENGTH = 1000` (line 82 of the source). -/
def DUPLICATE_HISTORY_LENGTH : Nat := 1000

/-- The byte label `b"\"uri\":"`. -/
def uriField : ByteStr := bs "\"uri\":"

/-- The byte label `b"\"tags\":"`. -/
def tagsField : ByteStr := bs "\"tags\":"

/-- The byte label `b"\"name\":"`. -/
def nameField : ByteStr := bs "\"name\":"

/-- The byte string `b"null"`. -/
def nullBytes : ByteStr := bs "null"

/-- The single double-quote byte `b"\""`. -/
def quoteByte : ByteStr := [34]

/--
Function `getfield(data, field, offset)` (source lines 115-124):

    field_start = data.find(field, offset)
    if field_start == -1: return None, None
    if data.find(b"null", field_start+len(field), field_start+len(field)+4) != -1:
        return None, None
    value_start = data.find(b"\"", field_start+len(field))
    if value_start == -1: return None, None
    value_end = data.find(b"\"", value_start+1)
    if value_end == -1: return None, None
    return data[value_start+1:value_end], value_end + 1

The pair `(None, None)` is modelled as `none`.
-/
def getfield (data field : ByteStr) (offset : Nat) : Option (ByteStr × Nat) :=
  let field_start := pyFindNat data field offset data.length
  if field_start = -1 then none
  else
    let l := field_start.toNat + field.length
    if pyFindNat data nullBytes l (l + 4) ≠ -1 then none
    else
      let value_start := pyFindNat data quoteByte l data.length
      if value_start = -1 then none
      else
        let value_end := pyFindNat data quoteByte (value_start.toNat + 1) data.length
        if value_end = -1 then none
        else some (pySlice data (value_start + 1) value_end, value_end.toNat + 1)

/--
The scanning loop of `getlist` (source lines 105-113):

    while True:
        entry_start = data.find(b"{", ptr, list_end)
        if entry_start == -1: break
        ptr = entry_start + 1
        entry_end = data.find(b"}", ptr, list_end)
        ptr = entry_end + 1
        tagname,_ = getfield(data[entry_start:entry_end],b"\"name\":")
        items += [tagname]
    return items

`fuel` bounds the number of iterations; `none` means the fuel ran out,
i.e. the source loop has not broken out after `fuel` iterations.
-/
def getlistLoop (data : ByteStr) (list_end : Int) :
    Nat → Int → List (Option ByteStr) → Option (List (Option ByteStr))
  | 0, _, _ => none
  | fuel + 1, ptr, items =>
    let entry_start := pyFind data [123] ptr list_end
    if entry_start = -1 then some items
    else
      let entry_end := pyFind data [125] (entry_start + 1) list_end
      let tagname := (getfield (pySlice data entry_start entry_end) nameField 0).map
        (fun p => p.1)
      getlistLoop data list_end fuel (entry_end + 1) (items ++ [tagname])

/--
Function `getlist(data, field)` (source lines 95-113).  The entry loop runs on
fuel `data.length + 1`, which suffices for every terminating run of the
source loop (each iteration that finds a closing brace advances `ptr` by
at least 2); a `none` result means the source loop diverges.

    field_start = data.find(field)
    if field_start == -1: return []
    empty = data.find(b"[]", field_start+len(field), field_start+len(field)+3)
    if empty != -1: return [] # Empty list
    # Otherwise assume content in list
    list_start = data.find(b"[", field_start+len(field))
    list_end = data.find(b"]", list_start+1)
    ptr = list_start+1
    items = []
    ... loop ...
-/
def getlist (data field : ByteStr) : Option (List (Option ByteStr)) :=
  let field_start := pyFindNat data field 0 data.length
  if field_start = -1 then some []
  else
    let l := field_start.toNat + field.length
    if pyFindNat data (bs "[]") l (l + 3) ≠ -1 then some []
    else
      let list_start := pyFindNat data [91] l data.length
      let list_end := pyFind data [93] (list_start + 1) (data.length : Int)
      getlistLoop data list_end (data.length + 1) (list_start + 1) []

/-- ASCII lower-casing of one byte; models `str.lower` after `bytes.decode`
for the ASCII payloads the program handles (non-ASCII case folding is not
modelled). -/
def pyLower (b : Nat) : Nat := if 65 ≤ b ∧ b ≤ 90 then b + 32 else b

/-- Models `t.decode().lower()` at the byte level. -/
def decodeLower (s : ByteStr) : ByteStr := s.map pyLower

/-- Models `set([t.decode().lower() for t in items])` once every element of
`items` is known to be non-`None`. -/
def tagSetOf (items : List (Option ByteStr)) : Finset ByteStr :=
  ((items.filterMap id).map decodeLower).toFinset

/-- The per-user state of `UserConnection`: the followed-tag set
`self.tags` and the outbound queue `self.posts` (front of the list =
front of the queue). -/
structure UserConnection where
  tags : Finset ByteStr
  posts : List ByteStr

/--
Method `UserConnection.queue_post` (source lines 146-150):

    intersection = self.tags.intersection(tags)
    if len(intersection)>0:
        await self.posts.put(url)
-/
def queue_post (u : UserConnection) (tags : Finset ByteStr) (url : ByteStr) :
    UserConnection :=
  if 0 < (u.tags ∩ tags).card then { u with posts := u.posts ++ [url] } else u

/-- The `while True` scan of `UserConnection.followed_tags`
(source lines 175-181), iterating `getfield` over `"name"` labels and
accumulating lower-cased tags into a set.  The offset returned by a
successful `getfield` strictly increases and stays at most
`chunk.length`, so fuel `chunk.length + 1` always suffices. -/
def followedTagsLoop (chunk : ByteStr) : Nat → Nat → Finset ByteStr → Finset ByteStr
  | 0, _, tags => tags
  | fuel + 1, offset, tags =>
    match getfield chunk nameField offset with
    | some (next_tag, off) =>
      followedTagsLoop chunk fuel off (insert (decodeLower next_tag) tags)
    | none => tags

/-- The pure part of `UserConnection.followed_tags` (source lines
167-182), given the first line `chunk` of the remote response:
`if len(chunk)==0: return None`, else scan the `"name"` fields.
A fetch exception is not modelled (it propagates and kills the task). -/
def followed_tags (chunk : ByteStr) : Option (Finset ByteStr) :=
  if chunk.length = 0 then none
  else some (followedTagsLoop chunk (chunk.length + 1) 0 ∅)

/-- One iteration of `UserConnection.update_tags` (source line 144):
`self.tags = await self.followed_tags()` — the previous value of
`self.tags` is discarded unconditionally. -/
def update_tags_step (_prev : Option (Finset ByteStr)) (chunk : ByteStr) :
    Option (Finset ByteStr) :=
  followed_tags chunk

/-- The eviction loop of `process_update` (source lines 195-196):

    while len(posts_order)>DUPLICATE_HISTORY_LENGTH:
        del posts[posts_order.pop(0)]

`posts` is represented by its key list (the dict's values `[url,[]]` are
never read); `del` removes the first occurrence of the key. -/
def evictLoop : List ByteStr → List ByteStr → List ByteStr × List ByteStr
  | posts, [] => (posts, [])
  | posts, x :: rest =>
    if DUPLICATE_HISTORY_LENGTH < (x :: rest).length then
      evictLoop (posts.erase x) rest
    else (posts, x :: rest)

/-- The dedup-cache update of `process_update` (source lines 190-196) as a
single operation on the pair `(posts, posts_order)`: a cached id is left
alone, a fresh id is appended to both and the eviction loop is run. -/
def dedupInsert (posts posts_order : List ByteStr) (url : ByteStr) :
    List ByteStr × List ByteStr :=
  if url ∈ posts then (posts, posts_order)
  else evictLoop (posts ++ [url]) (posts_order ++ [url])

/-- Models `url[8:].split(b"/")[0]` (source line 197): drop the 8 scheme bytes
and keep everything before the first `/`. -/
def server_of (url : ByteStr) : ByteStr :=
  (url.drop 8).takeWhile (fun b => b != 47)

/-- Models `servers[server]+=1 if server in servers else servers[server]=1`
(source lines 199-202), on the dict represented as an association list in
insertion order. -/
def bumpServer : List (ByteStr × Nat) → ByteStr → List (ByteStr × Nat)
  | [], s => [(s, 1)]
  | (k, v) :: rest, s =>
    if k = s then (k, v + 1) :: rest else (k, v) :: bumpServer rest s

/-- The process-wide mutable state touched by `process_update`:
the dedup cache (`posts` keys and `posts_order`), the statistics counters
(`total`, `servers`, `post_count`) and the registered user agents. -/
structure AppState where
  posts : List ByteStr
  posts_order : List ByteStr
  total : Nat
  servers : List (ByteStr × Nat)
  post_count : Nat
  users : List UserConnection

/--
Function `process_update(data)` (source lines 184-210).  The whole body runs under
`try/except`; the one statement that can raise inside it is the tag-set
comprehension (`t.decode()` on a `None` element of `getlist`'s result),
at which point the dedup and counter updates have already been applied,
so the except path returns that intermediate state.  A `none` result
models divergence of `getlist`'s scanning loop (no exception is raised
there; the call simply never returns).
-/
def process_update (st : AppState) (data : ByteStr) : Option AppState :=
  match getfield data uriField 0 with
  | none => some st
  | some (url, _) =>
    if url ∈ st.posts then some st
    else
      let pr := evictLoop (st.posts ++ [url]) (st.posts_order ++ [url])
      let server := server_of url
      let st2 : AppState :=
        { st with
          posts := pr.1
          posts_order := pr.2
          total := st.total + 1
          servers := bumpServer st.servers server
          post_count := st.post_count + 1 }
      match getlist data tagsField with
      | none => none
      | some lst =>
        if lst.any (fun t => t.isNone) then some st2
        else
          let tags := tagSetOf lst
          if 0 < tags.card then
            some { st2 with users := st2.users.map (fun u => queue_post u tags url) }
          else some st2

/-- A sequence of bare dedup-cache insertions starting from the empty
cache (the reachable dedup states of a run of `process_update` calls). -/
def runDedup (ids : List ByteStr) : List ByteStr × List ByteStr :=
  ids.foldl (fun s u => dedupInsert s.1 s.2 u) ([], [])

/-- The specification-side occurrence predicate: `sub` occurs at index `j`
of `data` and the occurrence lies entirely below the bound `hi`. -/
def occursIn (data sub : ByteStr) (j hi : Nat) : Prop :=
  sub.isPrefixOf (data.drop j) = true ∧ j + sub.length ≤ hi

/-- The specification-side description of `bytes.find`: `k` is the first
occurrence of `sub` at or after `lo`, with the bound `hi`. -/
def firstFrom (data sub : ByteStr) (lo hi k : Nat) : Prop :=
  lo ≤ k ∧ occursIn data sub k hi ∧ ∀ j, j < k → lo ≤ j → ¬ occursIn data sub j hi

instance (data sub : ByteStr) (j hi : Nat) : Decidable (occursIn data sub j hi) := by
  unfold occursIn; infer_instance

instance (data sub : ByteStr) (lo hi k : Nat) : Decidable (firstFrom data sub lo hi k) := by
  unfold firstFrom; infer_instance

lemma findLoop_none_of_not (data sub : ByteStr) (hi : Nat) :
    ∀ fuel k, (∀ j, k ≤ j → ¬ occursIn data sub j hi) →
      findLoop data sub hi fuel k = -1 := by
  intro fuel
  induction fuel with
  | zero => intro k _; rfl
  | succ n ih =>
    intro k hnone
    show findLoop data sub hi (n + 1) k = -1
    rw [findLoop]
    by_cases hle : k + sub.length ≤ hi
    · rw [if_pos hle]
      by_cases hpre : sub.isPrefixOf (data.drop k) = true
      · exact absurd ⟨hpre, hle⟩ (hnone k le_rfl)
      · rw [if_neg hpre]
        exact ih (k + 1) (fun j hj => hnone j (by omega))
    · rw [if_neg hle]

lemma findLoop_eq_of_first (data sub : ByteStr) (hi : Nat) :
    ∀ fuel k m, k ≤ m → occursIn data sub m hi →
      (∀ j, j < m → k ≤ j → ¬ occursIn data sub j hi) →
      m < k + fuel →
      findLoop data sub hi fuel k = (m : Int) := by
  intro fuel
  induction fuel with
  | zero => intro k m _ _ _ hlt; omega
  | succ n ih =>
    intro k m hkm hocc hmin hlt
    show findLoop data sub hi (n + 1) k = (m : Int)
    rw [findLoop]
    have hle : k + sub.length ≤ hi := by
      have := hocc.2; omega
    rw [if_pos hle]
    by_cases hpre : sub.isPrefixOf (data.drop k) = true
    · rw [if_pos hpre]
      rcases Nat.eq_or_lt_of_le hkm with heq | hklt
      · rw [heq]
      · exact absurd ⟨hpre, hle⟩ (hmin k hklt le_rfl)
    · rw [if_neg hpre]
      have hkm' : k + 1 ≤ m := by
        rcases Nat.eq_or_lt_of_le hkm with heq | hklt
        · subst heq; exact absurd hocc.1 hpre
        · omega
      exact ih (k + 1) m hkm' hocc (fun j hjm hj => hmin j hjm (by omega)) (by omega)

lemma findLoop_first_of_eq (data sub : ByteStr) (hi : Nat) :
    ∀ fuel k m, findLoop data sub hi fuel k = ((m : Nat) : Int) →
      k ≤ m ∧ occursIn data sub m hi ∧
        ∀ j, j < m → k ≤ j → ¬ occursIn data sub j hi := by
  intro fuel
  induction fuel with
  | zero =>
    intro k m h
    exact absurd h (by simp [findLoop])
  | succ n ih =>
    intro k m h
    rw [findLoop] at h
    by_cases hle : k + sub.length ≤ hi
    · rw [if_pos hle] at h
      by_cases hpre : sub.isPrefixOf (data.drop k) = true
      · rw [if_pos hpre] at h
        have hkm : k = m := by exact_mod_cast h
        subst hkm
        exact ⟨le_rfl, ⟨hpre, hle⟩, fun j h1 h2 => by omega⟩
      · rw [if_neg hpre] at h
        obtain ⟨h1, h2, h3⟩ := ih (k + 1) m h
        refine ⟨by omega, h2, fun j hjm hj => ?_⟩
        rcases Nat.eq_or_lt_of_le hj with heq | hlt
        · subst heq
          exact fun hocc => hpre hocc.1
        · exact h3 j hjm hlt
    · rw [if_neg hle] at h
      exact absurd h (by simp)

lemma findLoop_cases (data sub : ByteStr) (hi : Nat) :
    ∀ fuel k, findLoop data sub hi fuel k = -1 ∨
      ∃ m : Nat, findLoop data sub hi fuel k = ((m : Nat) : Int) := by
  intro fuel
  induction fuel with
  | zero => intro k; left; rfl
  | succ n ih =>
    intro k
    rw [findLoop]
    by_cases hle : k + sub.length ≤ hi
    · rw [if_pos hle]
      by_cases hpre : sub.isPrefixOf (data.drop k) = true
      · rw [if_pos hpre]; right; exact ⟨k, rfl⟩
      · rw [if_neg hpre]; exact ih (k + 1)
    · rw [if_neg hle]; left; rfl

lemma pyFindNat_eq_of_first (data sub : ByteStr) (lo stop m : Nat)
    (h : firstFrom data sub lo (min stop data.length) m) :
    pyFindNat data sub lo stop = (m : Int) := by
  obtain ⟨h1, h2, h3⟩ := h
  have hm : m + sub.length ≤ min stop data.length := h2.2
  exact findLoop_eq_of_first data sub (min stop data.length) _ lo m h1 h2 h3 (by omega)

lemma pyFindNat_neg_of_none (data sub : ByteStr) (lo stop : Nat)
    (h : ∀ j, lo ≤ j → ¬ occursIn data sub j (min stop data.length)) :
    pyFindNat data sub lo stop = -1 :=
  findLoop_none_of_not data sub (min stop data.length) _ lo h

lemma pyFindNat_first_of_eq (data sub : ByteStr) (lo stop m : Nat)
    (h : pyFindNat data sub lo stop = ((m : Nat) : Int)) :
    firstFrom data sub lo (min stop data.length) m :=
  findLoop_first_of_eq data sub (min stop data.length) _ lo m h

lemma pyFindNat_cases (data sub : ByteStr) (lo stop : Nat) :
    pyFindNat data sub lo stop = -1 ∨
      ∃ m : Nat, pyFindNat data sub lo stop = ((m : Nat) : Int) ∧
        firstFrom data sub lo (min stop data.length) m := by
  rcases findLoop_cases data sub (min stop data.length) (min stop data.length + 1 - lo) lo
    with h | ⟨m, h⟩
  · exact Or.inl h
  · exact Or.inr ⟨m, h, pyFindNat_first_of_eq data sub lo stop m h⟩

lemma findLoop_ne_neg_of_occurs (data sub : ByteStr) (hi : Nat) :
    ∀ fuel k m, k ≤ m → occursIn data sub m hi → m < k + fuel →
      findLoop data sub hi fuel k ≠ -1 := by
  intro fuel
  induction fuel with
  | zero => intro k m _ _ hlt; omega
  | succ n ih =>
    intro k m hkm hocc hlt
    rw [findLoop]
    have hle : k + sub.length ≤ hi := by
      have := hocc.2; omega
    rw [if_pos hle]
    by_cases hpre : sub.isPrefixOf (data.drop k) = true
    · rw [if_pos hpre]; simp
    · rw [if_neg hpre]
      have hkm' : k + 1 ≤ m := by
        rcases Nat.eq_or_lt_of_le hkm with heq | hklt
        · subst heq; exact absurd hocc.1 hpre
        · omega
      exact ih (k + 1) m hkm' hocc (by omega)

lemma pyFindNat_ne_neg_of_occurs (data sub : ByteStr) (lo stop m : Nat)
    (h1 : lo ≤ m) (h2 : occursIn data sub m (min stop data.length)) :
    pyFindNat data sub lo stop ≠ -1 := by
  have hm : m + sub.length ≤ min stop data.length := h2.2
  exact findLoop_ne_neg_of_occurs data sub (min stop data.length) _ lo m h1 h2 (by omega)

lemma pyIndex_natCast (len n : Nat) : pyIndex len ((n : Nat) : Int) = n := by
  unfold pyIndex
  rw [if_neg (by omega)]
  exact Int.toNat_natCast n

lemma occursIn_single (data : ByteStr) (b j : Nat) :
    occursIn data [b] j data.length ↔ ∃ h : j < data.length, data[j] = b := by
  unfold occursIn
  constructor
  · rintro ⟨hpre, hlen⟩
    have hj : j < data.length := by simpa using hlen
    refine ⟨hj, ?_⟩
    rw [ List.isPrefixOf_iff_prefix, List.drop_eq_getElem_cons hj,
      List.cons_prefix_cons] at hpre
    exact hpre.1.symm
  · rintro ⟨hj, hb⟩
    refine ⟨?_, by simpa using hj⟩
    rw [ List.isPrefixOf_iff_prefix, List.drop_eq_getElem_cons hj, hb]
    exact ⟨data.drop (j + 1), rfl⟩

/-- Anatomy of a successful `getfield` call: the four `find` results it
went through, and the returned value and offset in terms of them. -/
lemma getfield_some_shape (data field : ByteStr) (offset : Nat) (v : ByteStr)
    (off : Nat) (h : getfield data field offset = some (v, off)) :
    ∃ k vs ve : Nat,
      pyFindNat data field offset data.length = (k : Int) ∧
      pyFindNat data nullBytes (k + field.length) (k + field.length + 4) = -1 ∧
      pyFindNat data quoteByte (k + field.length) data.length = (vs : Int) ∧
      pyFindNat data quoteByte (vs + 1) data.length = (ve : Int) ∧
      v = (data.take ve).drop (vs + 1) ∧ off = ve + 1 := by
  simp only [getfield] at h
  rcases pyFindNat_cases data field offset data.length with h1 | ⟨k, h1, _⟩
  · rw [h1] at h; simp at h
  · rw [h1] at h
    rw [if_neg (by omega : ¬((k : Int) = -1)), Int.toNat_natCast] at h
    by_cases h2 : pyFindNat data nullBytes (k + field.length) (k + field.length + 4) = -1
    case neg => rw [if_pos (by exact h2)] at h; simp at h
    rw [if_neg (by simpa using h2)] at h
    rcases pyFindNat_cases data quoteByte (k + field.length) data.length
      with h3 | ⟨vs, h3, _⟩
    · rw [h3] at h; simp at h
    · rw [h3] at h
      rw [if_neg (by omega : ¬((vs : Int) = -1)), Int.toNat_natCast] at h
      rcases pyFindNat_cases data quoteByte (vs + 1) data.length with h4 | ⟨ve, h4, _⟩
      · rw [h4] at h; simp at h
      · rw [h4] at h
        rw [if_neg (by omega : ¬((ve : Int) = -1)), Int.toNat_natCast] at h
        refine ⟨k, vs, ve, h1, h2, h3, h4, ?_, ?_⟩
        · have hv := (Option.some.inj h)
          have : v = pySlice data ((vs : Int) + 1) (ve : Int) := (Prod.mk.injEq _ _ _ _ ▸ hv).1.symm
          rw [this]
          unfold pySlice
          have hcast : ((vs : Int) + 1) = ((vs + 1 : Nat) : Int) := by push_cast; ring
          rw [hcast, pyIndex_natCast, pyIndex_natCast]
        · have hv := (Option.some.inj h)
          exact ((Prod.mk.injEq _ _ _ _ ▸ hv).2).symm

/-- C5: `extractStringField` (`getfield`) returns `(null, null)` both when
the label is absent at or after the starting offset and when the token
following the label is the JSON `null` literal; otherwise (a first quote
and a second quote following the first occurrence of the label) it
returns the quoted string value — the bytes strictly between those two
quotes — together with the offset just past the closing quote. -/
theorem getfield_null_and_absent_contract (data field : ByteStr) (offset : Nat) :
    ((∀ j, offset ≤ j → ¬ occursIn data field j data.length) →
      getfield data field offset = none)
  ∧ (∀ k, firstFrom data field offset data.length k →
      nullBytes.isPrefixOf (data.drop (k + field.length)) = true →
      getfield data field offset = none)
  ∧ (∀ k vs ve, firstFrom data field offset data.length k →
      ¬ nullBytes.isPrefixOf (data.drop (k + field.length)) = true →
      firstFrom data quoteByte (k + field.length) data.length vs →
      firstFrom data quoteByte (vs + 1) data.length ve →
      getfield data field offset =
        some ((data.take ve).drop (vs + 1), ve + 1)) := by
  have hlen4 : nullBytes.length = 4 := rfl
  refine ⟨?_, ?_, ?_⟩
  · intro hnone
    have hneg : pyFindNat data field offset data.length = -1 := by
      refine pyFindNat_neg_of_none data field offset data.length ?_
      simpa [Nat.min_self] using hnone
    simp only [getfield]
    rw [hneg, if_pos rfl]
  · intro k hfirst hnull
    have h1 : pyFindNat data field offset data.length = (k : Int) := by
      refine pyFindNat_eq_of_first data field offset data.length k ?_
      simpa [Nat.min_self] using hfirst
    have hk4 : k + field.length + 4 ≤ data.length := by
      have hle := List.IsPrefix.length_le ( List.isPrefixOf_iff_prefix.1 hnull)
      rw [hlen4, List.length_drop] at hle
      omega
    have hocc : occursIn data nullBytes (k + field.length)
        (min (k + field.length + 4) data.length) := by
      refine ⟨hnull, ?_⟩
      rw [hlen4]; omega
    have hne := pyFindNat_ne_neg_of_occurs data nullBytes (k + field.length)
      (k + field.length + 4) (k + field.length) le_rfl hocc
    simp only [getfield]
    rw [h1, if_neg (by omega : ¬((k : Int) = -1)), Int.toNat_natCast, if_pos hne]
  · intro k vs ve hfirst hnull hvs hve
    have h1 : pyFindNat data field offset data.length = (k : Int) := by
      refine pyFindNat_eq_of_first data field offset data.length k ?_
      simpa [Nat.min_self] using hfirst
    have h2 : pyFindNat data nullBytes (k + field.length)
        (k + field.length + 4) = -1 := by
      refine pyFindNat_neg_of_none data nullBytes (k + field.length)
        (k + field.length + 4) ?_
      intro j hj hocc
      have h4 : j + nullBytes.length ≤ min (k + field.length + 4) data.length :=
        hocc.2
      rw [hlen4] at h4
      have hjeq : j = k + field.length := by omega
      subst hjeq
      exact hnull hocc.1
    have h3 : pyFindNat data quoteByte (k + field.length) data.length =
        (vs : Int) := by
      refine pyFindNat_eq_of_first data quoteByte (k + field.length) data.length
        vs ?_
      simpa [Nat.min_self] using hvs
    have h4 : pyFindNat data quoteByte (vs + 1) data.length = (ve : Int) := by
      refine pyFindNat_eq_of_first data quoteByte (vs + 1) data.length ve ?_
      simpa [Nat.min_self] using hve
    simp only [getfield]
    rw [h1, if_neg (by omega : ¬((k : Int) = -1)), Int.toNat_natCast,
      if_neg (by simpa using h2), h3, if_neg (by omega : ¬((vs : Int) = -1)),
      Int.toNat_natCast, h4, if_neg (by omega : ¬((ve : Int) = -1)),
      Int.toNat_natCast]
    unfold pySlice
    have hcast : ((vs : Int) + 1) = ((vs + 1 : Nat) : Int) := by push_cast; ring
    rw [hcast, pyIndex_natCast, pyIndex_natCast]

/-- Concrete instantiation of the C5 contract on the buffer
`"uri":"ab"`: label first at 0, quotes at 6 and 9, value `ab`. -/
theorem getfield_null_and_absent_contract_witness :
    getfield (bs "\"uri\":\"ab\"") uriField 0 = some (bs "ab", 10) := by
  have h := (getfield_null_and_absent_contract (bs "\"uri\":\"ab\"") uriField 0).2.2
    0 6 9 (by decide) (by decide) (by decide) (by decide)
  exact h.trans (by decide)

/-- C9: whenever `getfield` returns a value, the returned next offset is
strictly greater than the offset it was called with (strict progress of
the re-scan loop in `followed_tags`). -/
theorem getfield_strict_progress (data field : ByteStr) (offset : Nat)
    (v : ByteStr) (off : Nat) (hf : field ≠ [])
    (h : getfield data field offset = some (v, off)) :
    offset < off := by
  obtain ⟨k, vs, ve, h1, _h2, h3, h4, _hv, hoff⟩ :=
    getfield_some_shape data field offset v off h
  have hk := pyFindNat_first_of_eq data field offset data.length k h1
  have hvs := pyFindNat_first_of_eq data quoteByte (k + field.length)
    data.length vs h3
  have hve := pyFindNat_first_of_eq data quoteByte (vs + 1) data.length ve h4
  have hfl : 0 < field.length := List.length_pos.2 hf
  have e1 : offset ≤ k := hk.1
  have e2 : k + field.length ≤ vs := hvs.1
  have e3 : vs + 1 ≤ ve := hve.1
  omega

/-- Concrete instantiation of C9 on the buffer `"uri":"x"`. -/
theorem getfield_strict_progress_witness :
    uriField ≠ [] ∧ getfield (bs "\"uri\":\"x\"") uriField 0 = some (bs "x", 9) ∧
      (0 : Nat) < 9 :=
  ⟨by decide, by decide,
    getfield_strict_progress (bs "\"uri\":\"x\"") uriField 0 (bs "x") 9
      (by decide) (by decide)⟩

/-- C10: a value returned by `getfield` is exactly the bytes strictly
between the first two double-quote bytes found after the label, so it
never contains a double-quote byte; consequently a JSON string value with
an escaped quote is truncated at that quote, as the concrete second part
shows (`"uri":"a\"b"` yields the two bytes `a\`). -/
theorem getfield_value_between_first_quotes :
    (∀ data field : ByteStr, ∀ offset off : Nat, ∀ v : ByteStr,
      getfield data field offset = some (v, off) →
      34 ∉ v ∧
      ∃ k vs ve : Nat,
        firstFrom data field offset data.length k ∧
        firstFrom data quoteByte (k + field.length) data.length vs ∧
        firstFrom data quoteByte (vs + 1) data.length ve ∧
        v = (data.take ve).drop (vs + 1) ∧ off = ve + 1)
  ∧ getfield (bs "\"uri\":\"a\\\"b\"") uriField 0 = some (bs "a\\", 10) := by
  constructor
  · intro data field offset off v h
    obtain ⟨k, vs, ve, h1, _h2, h3, h4, hv, hoff⟩ :=
      getfield_some_shape data field offset v off h
    have hk := pyFindNat_first_of_eq data field offset data.length k h1
    have hvs := pyFindNat_first_of_eq data quoteByte (k + field.length)
      data.length vs h3
    have hve := pyFindNat_first_of_eq data quoteByte (vs + 1) data.length ve h4
    rw [Nat.min_self] at hk hvs hve
    refine ⟨?_, k, vs, ve, hk, hvs, hve, hv, hoff⟩
    intro hmem
    rw [hv] at hmem
    rcases List.mem_iff_getElem.1 hmem with ⟨i, hi, hval⟩
    have hlen : ((data.take ve).drop (vs + 1)).length =
        min ve data.length - (vs + 1) := by
      rw [List.length_drop, List.length_take]
    have hj1 : vs + 1 + i < ve := by rw [hlen] at hi; omega
    have hj2 : vs + 1 + i < data.length := by rw [hlen] at hi; omega
    have hidx : data[vs + 1 + i] = 34 := by
      rw [List.getElem_drop, List.getElem_take] at hval
      exact hval
    have hocc : occursIn data quoteByte (vs + 1 + i) data.length :=
      (occursIn_single data 34 (vs + 1 + i)).2 ⟨hj2, hidx⟩
    exact hve.2.2 (vs + 1 + i) hj1 (by omega) hocc
  · decide

/-- Concrete instantiation of C10's universal part: the truncated value
`a\` contains no double-quote byte. -/
theorem getfield_value_between_first_quotes_witness :
    (34 : Nat) ∉ bs "a\\" :=
  ((getfield_value_between_first_quotes).1 (bs "\"uri\":\"a\\\"b\"") uriField
    0 10 (bs "a\\") (by decide)).1

/-- The inductive invariant of the dedup cache: the dict key list and the
order list coincide, have no duplicates, and fit in the capacity. -/
def StrongInv (p o : List ByteStr) : Prop :=
  p = o ∧ o.Nodup ∧ o.length ≤ DUPLICATE_HISTORY_LENGTH

/-- The invariant as the specification states it: same id sets, equal
sizes, at most `CAPACITY` entries. -/
def ClaimedInv (p o : List ByteStr) : Prop :=
  (∀ x, x ∈ p ↔ x ∈ o) ∧ p.length = o.length ∧
    o.length ≤ DUPLICATE_HISTORY_LENGTH

lemma strongInv_claimed (p o : List ByteStr) (h : StrongInv p o) :
    ClaimedInv p o := by
  obtain ⟨rfl, _h2, h3⟩ := h
  exact ⟨fun x => Iff.rfl, rfl, h3⟩

lemma evictLoop_self (o : List ByteStr) :
    evictLoop o o =
      (o.drop (o.length - DUPLICATE_HISTORY_LENGTH),
       o.drop (o.length - DUPLICATE_HISTORY_LENGTH)) := by
  induction o with
  | nil => rfl
  | cons x rest ih =>
    show evictLoop (x :: rest) (x :: rest) = _
    rw [evictLoop]
    by_cases h : DUPLICATE_HISTORY_LENGTH < (x :: rest).length
    · rw [if_pos h, List.erase_cons_head, ih]
      have hlen : rest.length ≥ DUPLICATE_HISTORY_LENGTH := by
        simp only [List.length_cons] at h; omega
      have hidx : (x :: rest).length - DUPLICATE_HISTORY_LENGTH =
          (rest.length - DUPLICATE_HISTORY_LENGTH) + 1 := by
        simp only [List.length_cons]; omega
      rw [hidx, List.drop_succ_cons]
    · rw [if_neg h]
      have hidx : (x :: rest).length - DUPLICATE_HISTORY_LENGTH = 0 := by
        simp only [List.length_cons] at h ⊢; omega
      rw [hidx, List.drop_zero]

lemma dedupInsert_fresh (p o : List ByteStr) (url : ByteStr) (hp : url ∉ p) :
    dedupInsert p o url = evictLoop (p ++ [url]) (o ++ [url]) := by
  unfold dedupInsert; rw [if_neg hp]

lemma dedupInsert_strong (o : List ByteStr) (url : ByteStr)
    (h2 : o.Nodup) (h3 : o.length ≤ DUPLICATE_HISTORY_LENGTH) :
    StrongInv (dedupInsert o o url).1 (dedupInsert o o url).2 := by
  by_cases hm : url ∈ o
  · unfold dedupInsert; rw [if_pos hm]; exact ⟨rfl, h2, h3⟩
  · rw [dedupInsert_fresh o o url hm, evictLoop_self (o ++ [url])]
    dsimp only
    refine ⟨rfl, ?_, ?_⟩
    · refine List.Nodup.sublist (List.drop_sublist _ _) ?_
      rw [List.nodup_append]
      exact ⟨h2, List.nodup_singleton url, by
        intro a ha hb
        simp only [List.mem_singleton] at hb
        subst hb
        exact hm ha⟩
    · rw [List.length_drop, List.length_append, List.length_singleton]
      omega

lemma runDedup_concat (ids : List ByteStr) (x : ByteStr) :
    runDedup (ids ++ [x]) = dedupInsert (runDedup ids).1 (runDedup ids).2 x := by
  unfold runDedup
  rw [List.foldl_concat]

lemma runDedup_drop (ids : List ByteStr) (h : ids.Nodup) :
    (runDedup ids).1 = ids.drop (ids.length - DUPLICATE_HISTORY_LENGTH) ∧
      (runDedup ids).2 = ids.drop (ids.length - DUPLICATE_HISTORY_LENGTH) := by
  induction ids using List.reverseRecOn with
  | nil => exact ⟨rfl, rfl⟩
  | append_singleton ids x ih =>
    have hids : ids.Nodup := (List.nodup_append.1 h).1
    have hx : x ∉ ids := by
      intro hmem
      exact (List.nodup_append.1 h).2.2 hmem (by simp)
    obtain ⟨ih1, ih2⟩ := ih hids
    rw [runDedup_concat, ih1, ih2]
    have hD : DUPLICATE_HISTORY_LENGTH = 1000 := rfl
    have hxD : x ∉ ids.drop (ids.length - DUPLICATE_HISTORY_LENGTH) :=
      fun hmem => hx (List.drop_subset _ _ hmem)
    rw [dedupInsert_fresh _ _ _ hxD,
      evictLoop_self (ids.drop (ids.length - DUPLICATE_HISTORY_LENGTH) ++ [x])]
    have hDlen : (ids.drop (ids.length - DUPLICATE_HISTORY_LENGTH)).length =
        ids.length - (ids.length - DUPLICATE_HISTORY_LENGTH) :=
      List.length_drop _ _
    by_cases hbig : DUPLICATE_HISTORY_LENGTH ≤ ids.length
    · have hidx1 : (ids.drop (ids.length - DUPLICATE_HISTORY_LENGTH) ++
          [x]).length - DUPLICATE_HISTORY_LENGTH = 1 := by
        rw [List.length_append, List.length_singleton, hDlen]; omega
      have hidx2 : (ids ++ [x]).length - DUPLICATE_HISTORY_LENGTH =
          (ids.length - DUPLICATE_HISTORY_LENGTH) + 1 := by
        rw [List.length_append, List.length_singleton]; omega
      have hstep : (ids.drop (ids.length - DUPLICATE_HISTORY_LENGTH) ++ [x]).drop 1 =
          (ids ++ [x]).drop ((ids.length - DUPLICATE_HISTORY_LENGTH) + 1) := by
        rw [List.drop_append_of_le_length (by rw [hDlen]; omega),
          List.drop_drop,
          List.drop_append_of_le_length (by omega)]
      rw [hidx1, hidx2, hstep]
      exact ⟨rfl, rfl⟩
    · have h0' : (ids.drop (ids.length - DUPLICATE_HISTORY_LENGTH) ++
          [x]).length - DUPLICATE_HISTORY_LENGTH = 0 := by
        rw [List.length_append, List.length_singleton, hDlen]; omega
      have h0'' : (ids ++ [x]).length - DUPLICATE_HISTORY_LENGTH = 0 := by
        rw [List.length_append, List.length_singleton]; omega
      have h0 : ids.length - DUPLICATE_HISTORY_LENGTH = 0 := by omega
      rw [h0', h0'', h0, List.drop_zero, List.drop_zero, List.drop_zero]
      exact ⟨rfl, rfl⟩

/-- Any state produced by `process_update` either keeps the dedup-cache
fields unchanged, or carries the result of a fresh insert. -/
lemma process_update_dedup_cases (st : AppState) (data : ByteStr)
    (st' : AppState) (hp : process_update st data = some st') :
    (st'.posts = st.posts ∧ st'.posts_order = st.posts_order) ∨
      ∃ url off, getfield data uriField 0 = some (url, off) ∧ url ∉ st.posts ∧
        st'.posts = (evictLoop (st.posts ++ [url]) (st.posts_order ++ [url])).1 ∧
        st'.posts_order =
          (evictLoop (st.posts ++ [url]) (st.posts_order ++ [url])).2 := by
  unfold process_update at hp
  rcases hget : getfield data uriField 0 with _ | ⟨url, off⟩
  · rw [hget] at hp
    simp only [Option.some.injEq] at hp
    subst hp
    exact Or.inl ⟨rfl, rfl⟩
  · rw [hget] at hp
    dsimp only [] at hp
    by_cases hmem : url ∈ st.posts
    · rw [if_pos hmem] at hp
      simp only [Option.some.injEq] at hp
      subst hp
      exact Or.inl ⟨rfl, rfl⟩
    · rw [if_neg hmem] at hp
      refine Or.inr ⟨url, off, rfl, hmem, ?_⟩
      rcases hgl : getlist data tagsField with _ | lst
      · rw [hgl] at hp; simp at hp
      · rw [hgl] at hp
        dsimp only [] at hp
        by_cases hany : lst.any (fun t => t.isNone) = true
        · rw [if_pos hany] at hp
          simp only [Option.some.injEq] at hp
          subst hp
          exact ⟨rfl, rfl⟩
        · rw [if_neg hany] at hp
          by_cases hcard : 0 < (tagSetOf lst).card
          · rw [if_pos hcard] at hp
            simp only [Option.some.injEq] at hp
            subst hp
            exact ⟨rfl, rfl⟩
          · rw [if_neg hcard] at hp
            simp only [Option.some.injEq] at hp
            subst hp
            exact ⟨rfl, rfl⟩

/-- C1: after every call of the ingest pipeline `process_update` the dedup
cache keeps the invariant (the cached id set of `posts` equals the
element set of `posts_order`, their sizes are equal and at most
`DUPLICATE_HISTORY_LENGTH`); inserting more than
`DUPLICATE_HISTORY_LENGTH` distinct ids leaves exactly the most recently
inserted ids with the oldest evicted first; and re-insertion of a cached
id is a no-op (pure FIFO, no position refresh). -/
theorem dedup_invariant_and_fifo :
    (∀ (st : AppState) (data : ByteStr) (st' : AppState),
      StrongInv st.posts st.posts_order → process_update st data = some st' →
      StrongInv st'.posts st'.posts_order ∧ ClaimedInv st'.posts st'.posts_order)
  ∧ (∀ ids : List ByteStr, ids.Nodup → DUPLICATE_HISTORY_LENGTH < ids.length →
      (runDedup ids).1 = ids.drop (ids.length - DUPLICATE_HISTORY_LENGTH) ∧
      (runDedup ids).2 = ids.drop (ids.length - DUPLICATE_HISTORY_LENGTH))
  ∧ (∀ (p o : List ByteStr) (url : ByteStr), url ∈ p →
      dedupInsert p o url = (p, o)) := by
  refine ⟨?_, ?_, ?_⟩
  · intro st data st' hinv hp
    obtain ⟨hpo, h2, h3⟩ := hinv
    rcases process_update_dedup_cases st data st' hp with
      ⟨e1, e2⟩ | ⟨url, off, _hg, hmem, e1, e2⟩
    · have hs : StrongInv st'.posts st'.posts_order := by
        rw [e1, e2]; exact ⟨hpo, h2, h3⟩
      exact ⟨hs, strongInv_claimed _ _ hs⟩
    · rw [hpo] at e1 e2 hmem
      have hs : StrongInv st'.posts st'.posts_order := by
        rw [e1, e2, ← dedupInsert_fresh st.posts_order st.posts_order url hmem]
        exact dedupInsert_strong st.posts_order url h2 h3
      exact ⟨hs, strongInv_claimed _ _ hs⟩
  · intro ids hnodup _hlen
    exact runDedup_drop ids hnodup
  · intro p o url hmem
    unfold dedupInsert
    rw [if_pos hmem]

/-- The empty application state (all globals as initialised at the top of
the module). -/
def stEmpty : AppState := ⟨[], [], 0, [], 0, []⟩

/-- A list of 1001 pairwise distinct post ids. -/
def ids1001 : List ByteStr := (List.range 1001).map (fun n => [n])

/-- Concrete instantiation of the three parts of C1. -/
theorem dedup_invariant_and_fifo_witness :
    (StrongInv stEmpty.posts stEmpty.posts_order ∧
      ClaimedInv stEmpty.posts stEmpty.posts_order)
  ∧ ((runDedup ids1001).1 = ids1001.drop (ids1001.length - DUPLICATE_HISTORY_LENGTH) ∧
      (runDedup ids1001).2 = ids1001.drop (ids1001.length - DUPLICATE_HISTORY_LENGTH))
  ∧ dedupInsert [[97]] [[97]] [97] = ([[97]], [[97]]) := by
  have hstrong : StrongInv stEmpty.posts stEmpty.posts_order :=
    ⟨rfl, List.nodup_nil, Nat.zero_le _⟩
  have hrun : process_update stEmpty (bs "x") = some stEmpty := rfl
  have hnodup : ids1001.Nodup :=
    List.Nodup.map (fun a b hab => by simpa using hab) (List.nodup_range 1001)
  have hlen : DUPLICATE_HISTORY_LENGTH < ids1001.length := by
    have : ids1001.length = 1001 := by simp [ids1001]
    rw [this]
    decide
  refine ⟨dedup_invariant_and_fifo.1 stEmpty (bs "x") stEmpty hstrong hrun,
    dedup_invariant_and_fifo.2.1 ids1001 hnodup hlen,
    dedup_invariant_and_fifo.2.2 [[97]] [[97]] [97] (by simp)⟩

/-- C2 (code bug, source lines 141-144 and 167-182): on a tag-refresh
whose remote response is empty, `followed_tags` returns `None` and the
refresh loop assigns it to `self.tags` unconditionally — the previous
tag set is NOT kept, contrary to the stale-but-valid behaviour the
specification asks for (and a fetch exception propagates out of
`update_tags`, which has no handler, killing the refresh task). -/
theorem refresh_empty_response_clears_tags :
    update_tags_step (some {bs "news"}) (bs "") = none ∧
      (none : Option (Finset ByteStr)) ≠ some {bs "news"} := by
  exact ⟨rfl, by simp⟩

/-- C8: a payload whose extracted uri is already in the dedup cache is
silently dropped: `process_update` leaves the whole state unchanged. -/
theorem duplicate_uri_leaves_state_unchanged (st : AppState)
    (data url : ByteStr) (off : Nat)
    (h1 : getfield data uriField 0 = some (url, off))
    (h2 : url ∈ st.posts) :
    process_update st data = some st := by
  unfold process_update
  rw [h1]
  dsimp only
  rw [if_pos h2]

/-- A populated state whose dedup cache already holds the test uri. -/
def stDup : AppState :=
  ⟨[bs "https://s/3"], [bs "https://s/3"], 1, [(bs "s", 1)], 1,
    [⟨{bs "a"}, []⟩]⟩

/-- Concrete instantiation of C8. -/
theorem duplicate_uri_leaves_state_unchanged_witness :
    process_update stDup (bs "\"uri\":\"https://s/3\"") = some stDup :=
  duplicate_uri_leaves_state_unchanged stDup (bs "\"uri\":\"https://s/3\"")
    (bs "https://s/3") 19 (by decide) (by decide)

/-- C7: a fresh post with an empty extracted tag list updates the dedup
cache (inserting the id) and increments the statistics counters, but no
user's outbound queue is touched (the `users` field is inherited
unchanged by the state update). -/
theorem empty_tags_updates_stats_not_queues (st : AppState)
    (data url : ByteStr) (off : Nat)
    (h1 : getfield data uriField 0 = some (url, off))
    (h2 : url ∉ st.posts)
    (h3 : getlist data tagsField = some []) :
    process_update st data =
      some { st with
        posts := (dedupInsert st.posts st.posts_order url).1
        posts_order := (dedupInsert st.posts st.posts_order url).2
        total := st.total + 1
        servers := bumpServer st.servers (server_of url)
        post_count := st.post_count + 1 } := by
  unfold process_update
  rw [h1]
  dsimp only
  rw [if_neg h2, h3]
  dsimp only
  rw [if_neg (by simp : ¬(([] : List (Option ByteStr)).any (fun t => t.isNone) = true))]
  rw [if_neg (by decide : ¬(0 < (tagSetOf []).card))]
  rw [dedupInsert_fresh st.posts st.posts_order url h2]

/-- A state with one registered user following tag `a`. -/
def stOne : AppState := ⟨[], [], 0, [], 0, [⟨{bs "a"}, []⟩]⟩

/-- Concrete instantiation of C7. -/
theorem empty_tags_updates_stats_not_queues_witness :
    process_update stOne (bs "\"uri\":\"https://s/2\",\"tags\":[]") =
      some { stOne with
        posts := (dedupInsert stOne.posts stOne.posts_order (bs "https://s/2")).1
        posts_order :=
          (dedupInsert stOne.posts stOne.posts_order (bs "https://s/2")).2
        total := stOne.total + 1
        servers := bumpServer stOne.servers (server_of (bs "https://s/2"))
        post_count := stOne.post_count + 1 } :=
  empty_tags_updates_stats_not_queues stOne
    (bs "\"uri\":\"https://s/2\",\"tags\":[]") (bs "https://s/2") 19
    (by decide) (by decide) (by decide)

/-- C3: for a fresh post whose extracted tag set is non-empty, the ingest
pipeline appends the post id exactly once to the outbound queue of every
user whose followed-tag set has a non-empty intersection with the post's
tag set, and leaves the queue of every other user unchanged. -/
theorem fanout_enqueue_iff_intersection (st : AppState) (data url : ByteStr)
    (off : Nat) (lst : List (Option ByteStr))
    (h1 : getfield data uriField 0 = some (url, off))
    (h2 : url ∉ st.posts)
    (h3 : getlist data tagsField = some lst)
    (h4 : lst.any (fun t => t.isNone) = false)
    (h5 : (tagSetOf lst).Nonempty) :
    (process_update st data).map (fun s => s.users.map (fun u => u.posts)) =
      some (st.users.map (fun u =>
        if (u.tags ∩ tagSetOf lst).Nonempty then u.posts ++ [url]
        else u.posts)) := by
  unfold process_update
  rw [h1]
  dsimp only
  rw [if_neg h2, h3]
  dsimp only
  rw [if_neg (by rw [h4]; simp : ¬(lst.any (fun t => t.isNone) = true))]
  rw [if_pos (Finset.card_pos.mpr h5)]
  have hfun : ∀ u : UserConnection,
      (queue_post u (tagSetOf lst) url).posts =
        if (u.tags ∩ tagSetOf lst).Nonempty then u.posts ++ [url]
        else u.posts := by
    intro u
    unfold queue_post
    by_cases hne : (u.tags ∩ tagSetOf lst).Nonempty
    · rw [if_pos (Finset.card_pos.mpr hne), if_pos hne]
    · rw [if_neg (fun hc => hne (Finset.card_pos.mp hc)), if_neg hne]
  simp only [Option.map_some', List.map_map, Function.comp]
  exact congrArg some (List.map_congr_left (fun u _ => hfun u))

/-- Three registered users following `{a}`, `{b}` and `{a, b}`, all with
empty outbound queues. -/
def stThree : AppState :=
  ⟨[], [], 0, [], 0,
    [⟨{bs "a"}, []⟩, ⟨{bs "b"}, []⟩, ⟨{bs "a", bs "b"}, []⟩]⟩

/-- Concrete instantiation of C3: a post tagged `{b}` reaches exactly the
users following `{b}` and `{a, b}`, not the user following `{a}`. -/
theorem fanout_enqueue_iff_intersection_witness :
    (process_update stThree
        (bs "\"uri\":\"https://s/1\",\"tags\":[\x7b\"name\":\"b\"\x7d]")).map
        (fun s => s.users.map (fun u => u.posts)) =
      some [[], [bs "https://s/1"], [bs "https://s/1"]] := by
  have h := fanout_enqueue_iff_intersection stThree
    (bs "\"uri\":\"https://s/1\",\"tags\":[\x7b\"name\":\"b\"\x7d]")
    (bs "https://s/1") 19 [some (bs "b")]
    (by decide) (by decide) (by decide) (by decide) (by decide)
  exact h.trans (by decide)

lemma getlistLoop_bad_diverges :
    ∀ fuel (items : List (Option ByteStr)),
      getlistLoop (bs "\"tags\":[\x7b]") 9 fuel 0 items = none := by
  intro fuel
  induction fuel with
  | zero => intro items; rfl
  | succ n ih =>
    intro items
    have hstep : getlistLoop (bs "\"tags\":[\x7b]") 9 (n + 1) 0 items =
        getlistLoop (bs "\"tags\":[\x7b]") 9 n 0 (items ++ [none]) := rfl
    rw [hstep]
    exact ih (items ++ [none])

/-- C4 (code bug, source lines 105-113): on the malformed buffer
`"tags":[{]` — a `{` entry with no closing `}` before the list's `]` —
the scanning loop of `getlist` never terminates: `entry_end` is `-1`, so
`ptr = entry_end + 1 = 0` and the loop rescans the same brace forever.
The second conjunct shows the loop state recurring at `ptr = 0` never
breaks out, for any number of iterations and any accumulator. -/
theorem getlist_diverges_on_unterminated_entry :
    getlist (bs "\"tags\":[\x7b]") tagsField = none ∧
      ∀ fuel : Nat, ∀ items : List (Option ByteStr),
        getlistLoop (bs "\"tags\":[\x7b]") 9 fuel 0 items = none := by
  constructor
  · have hfirst : getlist (bs "\"tags\":[\x7b]") tagsField =
        getlistLoop (bs "\"tags\":[\x7b]") 9 11 8 [] := rfl
    have hstep : getlistLoop (bs "\"tags\":[\x7b]") 9 11 8 [] =
        getlistLoop (bs "\"tags\":[\x7b]") 9 10 0 [none] := rfl
    rw [hfirst, hstep]
    exact getlistLoop_bad_diverges 10 [none]
  · exact getlistLoop_bad_diverges

/-- The scan window of `getlist`: the position just after the first `[`
following the label, and the effective upper bound of the entry scan —
the first `]` after that `[` (interpreted through Python's index rules,
so a missing `]` gives the bound `length - 1`), clamped to the buffer
length.  These are exactly the `list_start + 1` and `list_end` values
`getlist` computes before entering its loop. -/
def getlistWindow (data field : ByteStr) : Nat × Nat :=
  let field_start := pyFindNat data field 0 data.length
  let l := field_start.toNat + field.length
  let list_start := pyFindNat data [91] l data.length
  let list_end := pyFind data [93] (list_start + 1) (data.length : Int)
  ((list_start + 1).toNat, min (pyIndex data.length list_end) data.length)

/-- Successive `{...}` object entries of the buffer below the bound `hi`,
in appearance order, scanning from `ptr`: each pair holds the first `{`
at or after the current position together with the first `}` after that
brace, and the next entry is sought past that closing brace. -/
def entryBoundsChain (data : ByteStr) (hi : Nat) : Nat → List (Nat × Nat) → Prop
  | _, [] => True
  | ptr, se :: rest =>
    firstFrom data [123] ptr hi se.1 ∧ firstFrom data [125] (se.1 + 1) hi se.2 ∧
      entryBoundsChain data hi (se.2 + 1) rest

/-- The amended C6 property of a `getlist` result: the returned sequence
is exactly the list of `"name"`-field extraction results of the
successive `{...}` entries of the bracketed list's scan window, in
appearance order (each entry closes strictly before the next opens). -/
def NameExtractionChain (data field : ByteStr)
    (out : List (Option ByteStr)) : Prop :=
  ∃ bounds : List (Nat × Nat),
    entryBoundsChain data (getlistWindow data field).2
      (getlistWindow data field).1 bounds ∧
    List.Chain' (fun a b => a.2 < b.1) bounds ∧
    out = bounds.map (fun se =>
      (getfield (pySlice data se.1 se.2) nameField 0).map (fun p => p.1))

lemma single_prefix_ne (l : ByteStr) (a b : Nat) (hab : a ≠ b)
    (ha : ([a] : ByteStr).isPrefixOf l = true)
    (hb : ([b] : ByteStr).isPrefixOf l = true) : False := by
  rw [ List.isPrefixOf_iff_prefix] at ha hb
  obtain ⟨t1, h1⟩ := ha
  obtain ⟨t2, h2⟩ := hb
  rw [← h1] at h2
  injection h2 with hhead _
  exact hab hhead.symm

lemma pyFindNat_succ_cast (data sub : ByteStr) (lo stop : Nat) :
    pyFindNat data sub lo stop + 1 =
      (((pyFindNat data sub lo stop + 1).toNat : Nat) : Int) := by
  rcases pyFindNat_cases data sub lo stop with hc | ⟨m, hc, _⟩
  · rw [hc]; norm_num
  · rw [hc]
    have hm : ((m : Int) + 1) = (((m + 1 : Nat) : Nat) : Int) := by push_cast; ring
    rw [hm, Int.toNat_natCast]

/-- A scan that still has an unclosed `{` at or ahead of its position
never breaks out of the loop: the missing `}` makes `ptr` reset to `0`,
at or below the unclosed brace again, forever. -/
lemma getlistLoop_none_of_unclosed (data : ByteStr) (le : Int) (p : Nat)
    (hocc : occursIn data [123] p (min (pyIndex data.length le) data.length))
    (hnocl : ∀ j, p + 1 ≤ j →
      ¬ occursIn data [125] j (min (pyIndex data.length le) data.length)) :
    ∀ fuel (ptr : Nat), ptr ≤ p →
      ∀ items, getlistLoop data le fuel ((ptr : Nat) : Int) items = none := by
  intro fuel
  induction fuel with
  | zero => intro ptr _ items; rfl
  | succ n ih =>
    intro ptr hptr items
    rw [getlistLoop]
    dsimp only
    have hfind : pyFind data [123] ((ptr : Nat) : Int) le =
        pyFindNat data [123] ptr (pyIndex data.length le) := by
      unfold pyFind
      rw [pyIndex_natCast]
    rw [hfind]
    have hne : pyFindNat data [123] ptr (pyIndex data.length le) ≠ -1 :=
      pyFindNat_ne_neg_of_occurs data [123] ptr (pyIndex data.length le) p
        hptr hocc
    rcases pyFindNat_cases data [123] ptr (pyIndex data.length le) with
      hcase | ⟨s, hs, hfs⟩
    · exact absurd hcase hne
    · rw [hs, if_neg (by omega : ¬((s : Int) = -1))]
      have hsp : s ≤ p := by
        by_contra hgt
        push_neg at hgt
        exact hfs.2.2 p hgt hptr hocc
      have hfind2 : pyFind data [125] ((s : Int) + 1) le =
          pyFindNat data [125] (s + 1) (pyIndex data.length le) := by
        unfold pyFind
        have hc : ((s : Int) + 1) = (((s + 1 : Nat) : Nat) : Int) := by
          push_cast; ring
        rw [hc, pyIndex_natCast]
      rw [hfind2]
      rcases pyFindNat_cases data [125] (s + 1) (pyIndex data.length le) with
        hcase2 | ⟨e, he, hfe⟩
      · rw [hcase2]
        have h0 : ((-1 : Int) + 1) = (((0 : Nat) : Nat) : Int) := by norm_num
        rw [h0]
        exact ih 0 (Nat.zero_le p) _
      · rw [he]
        have hep : e + 1 ≤ p := by
          rcases Nat.lt_or_ge e (p + 1) with hlt | hge
          · rcases Nat.eq_or_lt_of_le (Nat.lt_succ_iff.mp hlt) with heq | hlt2
            · exact (single_prefix_ne (data.drop p) 125 123 (by decide)
                (heq ▸ hfe.2.1.1) hocc.1).elim
            · omega
          · exact absurd hfe.2.1 (hnocl e hge)
        have hc2 : ((e : Int) + 1) = (((e + 1 : Nat) : Nat) : Int) := by
          push_cast; ring
        rw [hc2]
        exact ih (e + 1) hep _

/-- Chain characterisation of a terminating scan: the loop's output
extends the accumulator by the extractions of the successive entries
from the current position, in order.  The `entry_end = -1` reset case is
impossible in a terminating run: it would leave an unclosed brace ahead
of position `0`, and the loop would never return. -/
lemma getlistLoop_chain (data : ByteStr) (le : Int) :
    ∀ fuel (ptr : Nat) (items out : List (Option ByteStr)),
      getlistLoop data le fuel ((ptr : Nat) : Int) items = some out →
      ∃ bounds : List (Nat × Nat),
        entryBoundsChain data (min (pyIndex data.length le) data.length)
          ptr bounds ∧
        out = items ++ bounds.map (fun se =>
          (getfield (pySlice data se.1 se.2) nameField 0).map
            (fun p => p.1)) := by
  intro fuel
  induction fuel with
  | zero =>
    intro ptr items out h
    exact absurd h (by simp [getlistLoop])
  | succ n ih =>
    intro ptr items out h
    rw [getlistLoop] at h
    dsimp only at h
    have hfind : pyFind data [123] ((ptr : Nat) : Int) le =
        pyFindNat data [123] ptr (pyIndex data.length le) := by
      unfold pyFind
      rw [pyIndex_natCast]
    rw [hfind] at h
    rcases pyFindNat_cases data [123] ptr (pyIndex data.length le) with
      hcase | ⟨s, hs, hfs⟩
    · rw [hcase, if_pos rfl] at h
      simp only [Option.some.injEq] at h
      subst h
      exact ⟨[], by simp [entryBoundsChain], by simp⟩
    · rw [hs, if_neg (by omega : ¬((s : Int) = -1))] at h
      have hfind2 : pyFind data [125] ((s : Int) + 1) le =
          pyFindNat data [125] (s + 1) (pyIndex data.length le) := by
        unfold pyFind
        have hc : ((s : Int) + 1) = (((s + 1 : Nat) : Nat) : Int) := by
          push_cast; ring
        rw [hc, pyIndex_natCast]
      rw [hfind2] at h
      rcases pyFindNat_cases data [125] (s + 1) (pyIndex data.length le) with
        hcase2 | ⟨e, he, hfe⟩
      · rw [hcase2] at h
        have h0 : ((-1 : Int) + 1) = (((0 : Nat) : Nat) : Int) := by norm_num
        rw [h0] at h
        have hnocl : ∀ j, s + 1 ≤ j →
            ¬ occursIn data [125] j (min (pyIndex data.length le) data.length) :=
          fun j hj hocc =>
            pyFindNat_ne_neg_of_occurs data [125] (s + 1)
              (pyIndex data.length le) j hj hocc hcase2
        rw [getlistLoop_none_of_unclosed data le s hfs.2.1 hnocl n 0
          (Nat.zero_le s) _] at h
        exact Option.noConfusion h
      · rw [he] at h
        have hc2 : ((e : Int) + 1) = (((e + 1 : Nat) : Nat) : Int) := by
          push_cast; ring
        rw [hc2] at h
        obtain ⟨bounds, hchain, hout⟩ := ih (e + 1) _ out h
        refine ⟨(s, e) :: bounds, ?_, ?_⟩
        · rw [entryBoundsChain]
          exact ⟨hfs, hfe, hchain⟩
        · rw [hout]
          simp

lemma entryBoundsChain_ordered (data : ByteStr) (hi : Nat) :
    ∀ (bounds : List (Nat × Nat)) (ptr : Nat),
      entryBoundsChain data hi ptr bounds →
      List.Chain' (fun a b => a.2 < b.1) bounds := by
  intro bounds
  induction bounds with
  | nil => intro ptr _; exact List.chain'_nil
  | cons se rest ih =>
    intro ptr h
    rw [entryBoundsChain] at h
    obtain ⟨_h1, _h2, h3⟩ := h
    cases rest with
    | nil => simp
    | cons se2 rest2 =>
      rw [List.chain'_cons]
      have h3' := h3
      rw [entryBoundsChain] at h3'
      refine ⟨?_, ih (se.2 + 1) h3⟩
      have hle := h3'.1.1
      omega

/-- C6 (amended): the sequence returned by a terminating `getlist` call
is exactly the list of `"name"`-field extraction results of the
successive `{...}` object entries of the bracketed list (the scan window
opening just after the first `[` following the label, bounded by the
first `]` after it), in appearance order, with each entry closing
strictly before the next opens — and the extraction is `None`, not a
string, for an entry that has no name string field. -/
theorem getlist_elements_are_name_extractions (data field : ByteStr)
    (out : List (Option ByteStr)) (h : getlist data field = some out) :
    NameExtractionChain data field out := by
  unfold getlist at h
  dsimp only at h
  split at h
  · simp only [Option.some.injEq] at h
    subst h
    exact ⟨[], by simp [entryBoundsChain], List.chain'_nil, by simp⟩
  · split at h
    · simp only [Option.some.injEq] at h
      subst h
      exact ⟨[], by simp [entryBoundsChain], List.chain'_nil, by simp⟩
    · nth_rewrite 2 [pyFindNat_succ_cast data [91]
        ((pyFindNat data field 0 data.length).toNat + field.length)
        data.length] at h
      obtain ⟨bounds, hchain, hout⟩ := getlistLoop_chain data
        (pyFind data [93]
          (pyFindNat data [91]
            ((pyFindNat data field 0 data.length).toNat + field.length)
            data.length + 1) (data.length : Int))
        (data.length + 1)
        ((pyFindNat data [91]
          ((pyFindNat data field 0 data.length).toNat + field.length)
          data.length + 1).toNat) [] out h
      refine ⟨bounds, ?_, entryBoundsChain_ordered data _ bounds _ hchain,
        by simpa using hout⟩
      simp only [getlistWindow]
      exact hchain

/-- Concrete instantiation of the amended C6 on a well-formed buffer. -/
theorem getlist_elements_are_name_extractions_witness :
    NameExtractionChain (bs "\"tags\":[\x7b\"name\":\"b\"\x7d]") tagsField
      [some (bs "b")] :=
  getlist_elements_are_name_extractions
    (bs "\"tags\":[\x7b\"name\":\"b\"\x7d]") tagsField [some (bs "b")]
    (by decide)

/-- C6 counterexample: on the buffer `"tags":[{}]` — one entry with no
name field — `getlist` returns `[None]`: an element that is not a
string, refuting the claim that no `None` element is ever returned. -/
theorem getlist_returns_none_element :
    getlist (bs "\"tags\":[\x7b\x7d]") tagsField = some [none] ∧
      ¬ ∀ x ∈ (getlist (bs "\"tags\":[\x7b\x7d]") tagsField).getD [],
          ∃ s : ByteStr, x = some s := by
  constructor
  · decide
  · intro hall
    have hmem : (none : Option ByteStr) ∈
        (getlist (bs "\"tags\":[\x7b\x7d]") tagsField).getD [] := by decide
    rcases hall none hmem with ⟨s, hs⟩
    exact Option.noConfusion hs

end MastodonTagFinder
